import Mathlib

/-!
Shallow embedding of the intrusive linked stack of `Cosmicverse/lib-algo`.

The repository holds two near-identical implementations of the same
structure:

* `src/src/structures/Stack.ts` — the empty marker is the plain absent
  value `void 0`;
* `src/unnamed/part_000` — the empty marker is the shared `SentinelNode`
  value imported from `@/utils`.

Nodes are mutable records carrying a single `parent` field, so the global
mutable state is modelled as a heap mapping each node reference to the
current content of its `parent` field. A node reference is a `NodeId`;
reference identity is identity of `NodeId`s. The absent marker (`void 0`
in the first file, `SentinelNode` in the second — see `SentinelNode`
below) is `none`. The `guard` helper of `@cosmicmind/foundationjs`
checks that a value is defined, i.e. that the option is `some`.

The generator functions and the `while` loops of the source walk `parent`
links; each such loop is embedded with an explicit fuel argument counting
the loop iterations that may still execute, so every definition is a total
computable function. Theorems assume enough fuel for the chain at hand.
-/

/-- Node references: a node's identity is its reference. -/
abbrev NodeId := Nat

/-- The mutable state of all nodes: the heap maps a node reference to the
current content of its `parent` field, `none` being the empty sentinel. -/
abbrev Heap := NodeId → Option NodeId

/-- Writing the `parent` field of node `i`. -/
def updateHeap (h : Heap) (i : NodeId) (v : Option NodeId) : Heap :=
  fun j => if j = i then v else h j

/-- The `Stack<T>` record of the source: `top?: T` together with
`count: number`. The count is an integer so that the unguarded decrement
in `stackPop` is modelled exactly even on corrupted states. -/
structure Stack where
  top : Option NodeId
  count : Int
deriving DecidableEq, Repr

/-- JS strict comparison `a > b` applied to two plain node objects: both
operands coerce to the same primitive string, so the result is false for
every pair of node references. -/
def nodeGt (_a _b : NodeId) : Bool := false

/-- Default comparator of `Stack.ts`:
`(a, b) => a === b ? 0 : a > b ? 1 : -1`. -/
def StackCompareFn (a b : NodeId) : Int :=
  if a = b then 0 else if nodeGt a b then 1 else -1

/-- `stackNodeCreate`: creates a node whose `parent` is initialized to the
sentinel; in the heap model, the fresh node's `parent` entry is set to
`none`. -/
def stackNodeCreate (h : Heap) (i : NodeId) : Heap :=
  updateHeap h i none

/-- `stackCreate`: returns `{ top: sentinel, count: 0 }`. -/
def stackCreate : Stack :=
  { top := none, count := 0 }

/-- `stackPeek`: returns `stack.top`. -/
def stackPeek (s : Stack) : Option NodeId :=
  s.top

/-- `stackPush`: `node.parent = stack.top; stack.top = node; ++stack.count`.
Returns the updated stack and heap. -/
def stackPush (s : Stack) (h : Heap) (node : NodeId) : Stack × Heap :=
  ({ top := some node, count := s.count + 1 }, updateHeap h node s.top)

/-- `stackPop`: if the top is defined, the top becomes its parent, the
popped node's `parent` is reset to the sentinel and the count is
decremented; the old top is returned in every case. -/
def stackPop (s : Stack) (h : Heap) : Option NodeId × Stack × Heap :=
  match s.top with
  | none => (none, s, h)
  | some n => (some n, { top := h n, count := s.count - 1 }, updateHeap h n none)

/-- Parent-link walk shared by the generator functions: follows `parent`
links from `o`, yielding every node met until the sentinel, `fuel` bounding
the number of iterations executed. -/
def chain (h : Heap) : Nat → Option NodeId → List NodeId
  | 0, _ => []
  | fuel + 1, o =>
    match o with
    | none => []
    | some n => n :: chain h fuel (h n)

/-- `stackIterator`: yields the nodes from `stack.top` down to, and
excluding, the sentinel. -/
def stackIterator (fuel : Nat) (s : Stack) (h : Heap) : List NodeId :=
  chain h fuel s.top

/-- `stackIterateFrom`: the same walk, started at a given node (the node
itself is yielded first). -/
def stackIterateFrom (fuel : Nat) (h : Heap) (node : NodeId) : List NodeId :=
  chain h fuel (some node)

/-- `stackIterateToParent`: the same walk, started at `node.parent` (the
node itself is skipped). -/
def stackIterateToParent (fuel : Nat) (h : Heap) (node : NodeId) : List NodeId :=
  chain h fuel (h node)

/-- `stackClear`: `while guard(stack.top) stackPop(stack)`, with fuel
bounding the number of iterations executed. -/
def stackClear : Nat → Stack → Heap → Stack × Heap
  | 0, s, h => (s, h)
  | fuel + 1, s, h =>
    match s.top with
    | none => (s, h)
    | some _ => stackClear fuel (stackPop s h).2.1 (stackPop s h).2.2

/-- Loop body of `stackDepth`: counts the nodes met while walking `parent`
links from `o` to the sentinel. -/
def depthLoop (h : Heap) : Nat → Option NodeId → Nat
  | 0, _ => 0
  | fuel + 1, o =>
    match o with
    | none => 0
    | some n => depthLoop h fuel (h n) + 1

/-- `stackDepth`: starts the count one hop above `node`, at `node.parent`,
so the node itself is not counted. -/
def stackDepth (fuel : Nat) (h : Heap) (node : NodeId) : Nat :=
  depthLoop h fuel (h node)

/-- `stackIsTop`: `guard(stack.top) && 0 === compare(stack.top, node)`. -/
def stackIsTop (s : Stack) (node : NodeId) (compare : NodeId → NodeId → Int) : Bool :=
  match s.top with
  | none => false
  | some t => compare t node == 0

/-- `stackHas`: walks the iterator and reports whether some reachable node
compares equal to the given node (short-circuiting on the first match). -/
def stackHas (fuel : Nat) (s : Stack) (h : Heap) (node : NodeId)
    (compare : NodeId → NodeId → Int) : Bool :=
  (chain h fuel s.top).any (fun n => compare n node == 0)

/-- JS `Set.add`: insertion-ordered, deduplicating by identity. -/
def setAdd (r : List NodeId) (n : NodeId) : List NodeId :=
  if n ∈ r then r else r ++ [n]

/-- Loop of `stackQuery`: a node is added to the result set exactly when
every predicate accepts it (the labelled `continue loop` skips the node as
soon as one predicate rejects it). -/
def queryLoop (fns : List (NodeId → Bool)) : List NodeId → List NodeId → List NodeId
  | [], r => r
  | n :: rest, r =>
    queryLoop fns rest (if fns.all (fun f => f n) then setAdd r n else r)

/-- `stackQuery`: traverses the iterator and collects, as a set, the nodes
satisfying all given predicates. -/
def stackQuery (fuel : Nat) (s : Stack) (h : Heap)
    (fns : List (NodeId → Bool)) : List NodeId :=
  queryLoop fns (chain h fuel s.top) []

/-- Modelled from the spec: `SentinelNode` is imported from `@/utils`, a
file of this repository that is not present under `src/`. Per the spec
(design note on the sentinel-as-empty pattern, and the glossary) it is the
shared designated "no reference" empty-marker terminating every chain, to
be identified with the plain absent value; it is therefore embedded as
`none`, the same marker as `void 0` of `Stack.ts`. -/
def SentinelNode : Option NodeId := none

namespace P0

/-- Default comparator of `part_000`: `(a, b) => a === b ? 0 : -1`. -/
def StackCompareFn (a b : NodeId) : Int :=
  if a = b then 0 else -1

/-- `stackNodeCreate` of `part_000`: the fresh node's `parent` is
initialized to `SentinelNode`. -/
def stackNodeCreate (h : Heap) (i : NodeId) : Heap :=
  updateHeap h i SentinelNode

/-- `stackCreate` of `part_000`: `{ top: SentinelNode, count: 0 }`. -/
def stackCreate : Stack :=
  { top := SentinelNode, count := 0 }

/-- `stackPeek` of `part_000`. -/
def stackPeek (s : Stack) : Option NodeId :=
  s.top

/-- `stackPush` of `part_000`. -/
def stackPush (s : Stack) (h : Heap) (node : NodeId) : Stack × Heap :=
  ({ top := some node, count := s.count + 1 }, updateHeap h node s.top)

/-- `stackPop` of `part_000`: the popped node's `parent` is reset to
`SentinelNode`. -/
def stackPop (s : Stack) (h : Heap) : Option NodeId × Stack × Heap :=
  match s.top with
  | none => (none, s, h)
  | some n =>
    (some n, { top := h n, count := s.count - 1 }, updateHeap h n SentinelNode)

/-- Parent-link walk of the generator functions of `part_000`. -/
def chain (h : Heap) : Nat → Option NodeId → List NodeId
  | 0, _ => []
  | fuel + 1, o =>
    match o with
    | none => []
    | some n => n :: chain h fuel (h n)

/-- `stackIterator` of `part_000`. -/
def stackIterator (fuel : Nat) (s : Stack) (h : Heap) : List NodeId :=
  chain h fuel s.top

/-- `stackIterateFrom` of `part_000`. -/
def stackIterateFrom (fuel : Nat) (h : Heap) (node : NodeId) : List NodeId :=
  chain h fuel (some node)

/-- `stackIterateToParent` of `part_000`. -/
def stackIterateToParent (fuel : Nat) (h : Heap) (node : NodeId) : List NodeId :=
  chain h fuel (h node)

/-- `stackClear` of `part_000`. -/
def stackClear : Nat → Stack → Heap → Stack × Heap
  | 0, s, h => (s, h)
  | fuel + 1, s, h =>
    match s.top with
    | none => (s, h)
    | some _ => stackClear fuel (stackPop s h).2.1 (stackPop s h).2.2

/-- Loop body of `stackDepth` of `part_000`. -/
def depthLoop (h : Heap) : Nat → Option NodeId → Nat
  | 0, _ => 0
  | fuel + 1, o =>
    match o with
    | none => 0
    | some n => depthLoop h fuel (h n) + 1

/-- `stackDepth` of `part_000`. -/
def stackDepth (fuel : Nat) (h : Heap) (node : NodeId) : Nat :=
  depthLoop h fuel (h node)

/-- `stackIsTop` of `part_000`. -/
def stackIsTop (s : Stack) (node : NodeId) (compare : NodeId → NodeId → Int) : Bool :=
  match s.top with
  | none => false
  | some t => compare t node == 0

/-- `stackHas` of `part_000`. -/
def stackHas (fuel : Nat) (s : Stack) (h : Heap) (node : NodeId)
    (compare : NodeId → NodeId → Int) : Bool :=
  (chain h fuel s.top).any (fun n => compare n node == 0)

/-- Loop of `stackQuery` of `part_000`. -/
def queryLoop (fns : List (NodeId → Bool)) : List NodeId → List NodeId → List NodeId
  | [], r => r
  | n :: rest, r =>
    queryLoop fns rest (if fns.all (fun f => f n) then setAdd r n else r)

/-- `stackQuery` of `part_000`. -/
def stackQuery (fuel : Nat) (s : Stack) (h : Heap)
    (fns : List (NodeId → Bool)) : List NodeId :=
  queryLoop fns (chain h fuel s.top) []

end P0

/-- Pushing a list of nodes in order, leftmost first. -/
def pushAll (s : Stack) (h : Heap) : List NodeId → Stack × Heap
  | [] => (s, h)
  | n :: rest => pushAll (stackPush s h n).1 (stackPush s h n).2 rest

/-- Popping `k` times, collecting the returned references in order. -/
def popTimes : Nat → Stack → Heap → List (Option NodeId) × Stack × Heap
  | 0, s, h => ([], s, h)
  | k + 1, s, h =>
    ((stackPop s h).1 :: (popTimes k (stackPop s h).2.1 (stackPop s h).2.2).1,
     (popTimes k (stackPop s h).2.1 (stackPop s h).2.2).2)

/-- The nodes `l` are exactly the chain of `parent` links starting at `o`:
`o` points at the head of `l`, each node's `parent` points at the next,
and the last node's `parent` is the sentinel. -/
def isChain (h : Heap) : Option NodeId → List NodeId → Prop
  | o, [] => o = none
  | o, a :: t => o = some a ∧ isChain h (h a) t

instance isChain.instDecidable (h : Heap) :
    (o : Option NodeId) → (l : List NodeId) → Decidable (isChain h o l)
  | o, [] => inferInstanceAs (Decidable (o = none))
  | o, a :: t =>
    have := isChain.instDecidable h (h a) t
    inferInstanceAs (Decidable (o = some a ∧ isChain h (h a) t))

/-- The stack `s` over heap `h` holds exactly the nodes `l`, top first:
its chain of `parent` links is `l`, its count is the length of `l`, and
the nodes are pairwise distinct (the single-linkage usage contract). -/
def Represents (s : Stack) (h : Heap) (l : List NodeId) : Prop :=
  isChain h s.top l ∧ s.count = l.length ∧ l.Nodup

theorem updateHeap_same (h : Heap) (i : NodeId) (v : Option NodeId) :
    updateHeap h i v i = v := by
  simp [updateHeap]

theorem updateHeap_other (h : Heap) (i j : NodeId) (v : Option NodeId)
    (hij : j ≠ i) : updateHeap h i v j = h j := by
  simp [updateHeap, hij]

theorem isChain_update_of_not_mem {h : Heap} (n : NodeId) (v : Option NodeId) :
    ∀ {o : Option NodeId} {l : List NodeId}, isChain h o l → n ∉ l →
      isChain (updateHeap h n v) o l := by
  intro o l
  induction l generalizing o with
  | nil => intro hc _; exact hc
  | cons a t ih =>
    intro hc hn
    obtain ⟨ho, ht⟩ := hc
    have hna : a ≠ n := fun e => hn (e ▸ List.mem_cons_self a t)
    refine ⟨ho, ?_⟩
    rw [updateHeap_other h n a v hna]
    exact ih ht (fun m => hn (List.mem_cons_of_mem a m))

theorem represents_create (h : Heap) : Represents stackCreate h [] := by
  exact ⟨rfl, rfl, List.nodup_nil⟩

theorem represents_push {s : Stack} {h : Heap} {l : List NodeId} {n : NodeId}
    (hr : Represents s h l) (hn : n ∉ l) :
    Represents (stackPush s h n).1 (stackPush s h n).2 (n :: l) := by
  obtain ⟨hc, hcount, hnd⟩ := hr
  refine ⟨⟨rfl, ?_⟩, ?_, List.nodup_cons.mpr ⟨hn, hnd⟩⟩
  · show isChain (updateHeap h n s.top) (updateHeap h n s.top n) l
    rw [updateHeap_same]
    exact isChain_update_of_not_mem n s.top hc hn
  · simp [stackPush, hcount]

theorem represents_pop_cons {s : Stack} {h : Heap} {a : NodeId} {t : List NodeId}
    (hr : Represents s h (a :: t)) :
    stackPop s h = (some a, { top := h a, count := s.count - 1 }, updateHeap h a none) ∧
      Represents { top := h a, count := s.count - 1 } (updateHeap h a none) t := by
  obtain ⟨⟨ho, ht⟩, hcount, hnd⟩ := hr
  have hna : a ∉ t := (List.nodup_cons.mp hnd).1
  constructor
  · simp [stackPop, ho]
  · refine ⟨?_, ?_, (List.nodup_cons.mp hnd).2⟩
    · exact isChain_update_of_not_mem a none ht hna
    · simp only [hcount, List.length_cons]
      push_cast
      ring

theorem represents_pop_nil {s : Stack} {h : Heap}
    (hr : Represents s h []) : stackPop s h = (none, s, h) := by
  obtain ⟨hc, _, _⟩ := hr
  simp [stackPop, show s.top = none from hc]

theorem represents_count_zero_iff {s : Stack} {h : Heap} {l : List NodeId}
    (hr : Represents s h l) : s.count = 0 ↔ s.top = none := by
  obtain ⟨hc, hcount, _⟩ := hr
  cases l with
  | nil => simp [hcount, show s.top = none from hc]
  | cons a t =>
    constructor
    · intro h0
      rw [hcount] at h0
      simp only [List.length_cons] at h0
      exact absurd h0 (by omega)
    · intro htop
      rw [hc.1] at htop
      cases htop

theorem chain_of_isChain {h : Heap} :
    ∀ {o : Option NodeId} {l : List NodeId} {fuel : Nat}, isChain h o l →
      l.length ≤ fuel → chain h fuel o = l := by
  intro o l
  induction l generalizing o with
  | nil =>
    intro fuel hc _
    cases fuel with
    | zero => rfl
    | succ f => simp [chain, show o = none from hc]
  | cons a t ih =>
    intro fuel hc hfuel
    obtain ⟨ho, ht⟩ := hc
    cases fuel with
    | zero => exact absurd hfuel (by simp)
    | succ f =>
      subst ho
      show a :: chain h f (h a) = a :: t
      rw [ih ht (by simpa using hfuel)]

theorem depthLoop_of_isChain {h : Heap} :
    ∀ {o : Option NodeId} {l : List NodeId} {fuel : Nat}, isChain h o l →
      l.length ≤ fuel → depthLoop h fuel o = l.length := by
  intro o l
  induction l generalizing o with
  | nil =>
    intro fuel hc _
    cases fuel with
    | zero => rfl
    | succ f => simp [depthLoop, show o = none from hc]
  | cons a t ih =>
    intro fuel hc hfuel
    obtain ⟨ho, ht⟩ := hc
    cases fuel with
    | zero => exact absurd hfuel (by simp)
    | succ f =>
      subst ho
      show depthLoop h f (h a) + 1 = t.length + 1
      rw [ih ht (by simpa using hfuel)]

theorem stackClear_spec {l : List NodeId} :
    ∀ {s : Stack} {h : Heap} {fuel : Nat}, isChain h s.top l → l.Nodup →
      l.length ≤ fuel →
      (stackClear fuel s h).1.top = none ∧
      (stackClear fuel s h).1.count = s.count - l.length ∧
      (∀ i ∈ l, (stackClear fuel s h).2 i = none) ∧
      (∀ i, i ∉ l → (stackClear fuel s h).2 i = h i) := by
  induction l with
  | nil =>
    intro s h fuel hc _ _
    have htop : s.top = none := hc
    have heq : stackClear fuel s h = (s, h) := by
      cases fuel with
      | zero => rfl
      | succ f => simp [stackClear, htop]
    rw [heq]
    exact ⟨htop, by simp, by simp, fun i _ => rfl⟩
  | cons a t ih =>
    intro s h fuel hc hnd hfuel
    obtain ⟨ho, ht⟩ := hc
    have hat : a ∉ t := (List.nodup_cons.mp hnd).1
    cases fuel with
    | zero => exact absurd hfuel (by simp)
    | succ f =>
      have hstep : stackClear (f + 1) s h =
          stackClear f { top := h a, count := s.count - 1 } (updateHeap h a none) := by
        simp [stackClear, stackPop, ho]
      have hc' : isChain (updateHeap h a none) (h a) t :=
        isChain_update_of_not_mem a none ht hat
      have hlen : t.length ≤ f := by
        simp only [List.length_cons] at hfuel
        omega
      obtain ⟨htop', hcount', hmem', hframe'⟩ :=
        @ih { top := h a, count := s.count - 1 } (updateHeap h a none) f
          hc' (List.nodup_cons.mp hnd).2 hlen
      rw [hstep]
      refine ⟨htop', ?_, ?_, ?_⟩
      · rw [hcount']
        simp only [List.length_cons]
        push_cast
        ring
      · intro i hi
        rcases List.mem_cons.mp hi with rfl | hi'
        · rw [hframe' i hat]
          exact updateHeap_same h i none
        · exact hmem' i hi'
      · intro i hi
        have hia : i ≠ a := fun e => hi (e ▸ List.mem_cons_self a t)
        have hit : i ∉ t := fun m => hi (List.mem_cons_of_mem a m)
        rw [hframe' i hit]
        exact updateHeap_other h a i none hia

theorem pushAll_represents :
    ∀ {m : List NodeId} {s : Stack} {h : Heap} {l : List NodeId},
      Represents s h l → (∀ n ∈ m, n ∉ l) → m.Nodup →
      Represents (pushAll s h m).1 (pushAll s h m).2 (m.reverse ++ l) := by
  intro m
  induction m with
  | nil => intro s h l hr _ _; simpa using hr
  | cons n m' ih =>
    intro s h l hr hdisj hnd
    have hn : n ∉ l := hdisj n (List.mem_cons_self n m')
    have h1 := represents_push hr hn
    have hdisj' : ∀ x ∈ m', x ∉ n :: l := by
      intro x hx
      have hxl : x ∉ l := hdisj x (List.mem_cons_of_mem n hx)
      have hxn : x ≠ n := fun e => (List.nodup_cons.mp hnd).1 (e ▸ hx)
      simp [hxn, hxl]
    have h2 := ih h1 hdisj' (List.nodup_cons.mp hnd).2
    have hlist : (n :: m').reverse ++ l = m'.reverse ++ (n :: l) := by simp
    rw [show pushAll s h (n :: m') =
        pushAll (stackPush s h n).1 (stackPush s h n).2 m' from rfl, hlist]
    exact h2

theorem popTimes_represents :
    ∀ {l : List NodeId} {s : Stack} {h : Heap}, Represents s h l →
      (popTimes l.length s h).1 = l.map some ∧
      Represents (popTimes l.length s h).2.1 (popTimes l.length s h).2.2 [] := by
  intro l
  induction l with
  | nil => intro s h hr; exact ⟨rfl, hr⟩
  | cons a t ih =>
    intro s h hr
    obtain ⟨hpop, hrep'⟩ := represents_pop_cons hr
    obtain ⟨ih1, ih2⟩ := ih hrep'
    have key : popTimes (a :: t).length s h =
        (some a ::
          (popTimes t.length { top := h a, count := s.count - 1 } (updateHeap h a none)).1,
         (popTimes t.length { top := h a, count := s.count - 1 } (updateHeap h a none)).2) := by
      show popTimes (t.length + 1) s h = _
      simp only [popTimes, hpop]
    rw [key]
    exact ⟨by simp [ih1], ih2⟩

theorem queryLoop_eq_filter (fns : List (NodeId → Bool)) :
    ∀ {c r : List NodeId}, (∀ x ∈ c, x ∉ r) → c.Nodup →
      queryLoop fns c r = r ++ c.filter (fun n => fns.all (fun f => f n)) := by
  intro c
  induction c with
  | nil => intro r _ _; simp [queryLoop]
  | cons n rest ih =>
    intro r hdisj hnd
    by_cases hp : fns.all (fun f => f n) = true
    · have hnr : n ∉ r := hdisj n (List.mem_cons_self n rest)
      have hstep : queryLoop fns (n :: rest) r = queryLoop fns rest (r ++ [n]) := by
        simp [queryLoop, hp, setAdd, hnr]
      have hdisj2 : ∀ x ∈ rest, x ∉ r ++ [n] := by
        intro x hx
        simp only [List.mem_append, List.mem_singleton]
        push_neg
        exact ⟨hdisj x (List.mem_cons_of_mem n hx),
          fun e => (List.nodup_cons.mp hnd).1 (e ▸ hx)⟩
      rw [hstep, ih hdisj2 (List.nodup_cons.mp hnd).2]
      simp [List.filter_cons, hp, List.append_assoc]
    · have hstep : queryLoop fns (n :: rest) r = queryLoop fns rest r := by
        simp [queryLoop, hp]
      rw [hstep,
        ih (fun x hx => hdisj x (List.mem_cons_of_mem n hx)) (List.nodup_cons.mp hnd).2]
      simp [List.filter_cons, hp]

theorem stackQuery_eq_filter {s : Stack} {h : Heap} {l : List NodeId} {fuel : Nat}
    (fns : List (NodeId → Bool)) (hr : Represents s h l) (hf : l.length ≤ fuel) :
    stackQuery fuel s h fns = l.filter (fun n => fns.all (fun f => f n)) := by
  unfold stackQuery
  rw [chain_of_isChain hr.1 hf, queryLoop_eq_filter fns (by simp) hr.2.2]
  simp

theorem isChain_head {h : Heap} {o : Option NodeId} {l : List NodeId}
    (hc : isChain h o l) : o = l.head? := by
  cases l with
  | nil => exact hc
  | cons a t => exact hc.1

/-- C1: pushing `n` distinct, initially-unlinked nodes onto a freshly
created stack yields `count = n` and a peek of the last node pushed;
popping `n` times then returns the nodes in strict reverse push order,
after which `count = 0` and the peek is empty. -/
theorem claimC1_push_pop_lifo (l : List NodeId) (h0 : Heap)
    (hnd : l.Nodup) (_hunlinked : ∀ i ∈ l, h0 i = none) :
    (pushAll stackCreate h0 l).1.count = l.length ∧
    stackPeek (pushAll stackCreate h0 l).1 = l.getLast? ∧
    (popTimes l.length (pushAll stackCreate h0 l).1 (pushAll stackCreate h0 l).2).1
      = l.reverse.map some ∧
    (popTimes l.length (pushAll stackCreate h0 l).1
      (pushAll stackCreate h0 l).2).2.1.count = 0 ∧
    stackPeek (popTimes l.length (pushAll stackCreate h0 l).1
      (pushAll stackCreate h0 l).2).2.1 = none := by
  have hrep : Represents (pushAll stackCreate h0 l).1 (pushAll stackCreate h0 l).2
      l.reverse := by
    simpa using pushAll_represents (represents_create h0) (by simp) hnd
  have hlen : l.reverse.length = l.length := List.length_reverse l
  have hpops := popTimes_represents hrep
  rw [hlen] at hpops
  refine ⟨?_, ?_, hpops.1, ?_, ?_⟩
  · rw [hrep.2.1, hlen]
  · rw [stackPeek, isChain_head hrep.1, List.head?_reverse]
  · rw [hpops.2.2.1]
    rfl
  · rw [stackPeek, isChain_head hpops.2.1]
    rfl

/-- C1 witness at the concrete pushes `[0, 1, 2]` on the all-unlinked
heap. -/
theorem claimC1_witness :
    ([0, 1, 2] : List NodeId).Nodup ∧
    (∀ i ∈ ([0, 1, 2] : List NodeId), (fun _ => none : Heap) i = none) ∧
    ((pushAll stackCreate (fun _ => none) [0, 1, 2]).1.count = 3 ∧
     stackPeek (pushAll stackCreate (fun _ => none) [0, 1, 2]).1 = some 2 ∧
     (popTimes 3 (pushAll stackCreate (fun _ => none) [0, 1, 2]).1
       (pushAll stackCreate (fun _ => none) [0, 1, 2]).2).1
         = [some 2, some 1, some 0] ∧
     (popTimes 3 (pushAll stackCreate (fun _ => none) [0, 1, 2]).1
       (pushAll stackCreate (fun _ => none) [0, 1, 2]).2).2.1.count = 0 ∧
     stackPeek (popTimes 3 (pushAll stackCreate (fun _ => none) [0, 1, 2]).1
       (pushAll stackCreate (fun _ => none) [0, 1, 2]).2).2.1 = none) :=
  ⟨by decide, by decide,
    by simpa using claimC1_push_pop_lifo [0, 1, 2] (fun _ => none) (by decide) (by decide)⟩

/-- C2: the invariant `count = 0 ↔ top = empty` holds on a fresh stack and
is preserved by `stackPush` (of a node outside the stack, per the
single-linkage contract), `stackPop`, and `stackClear`, on any stack that
represents a list of distinct nodes. -/
theorem claimC2_count_zero_iff_top_empty :
    (stackCreate.count = 0 ↔ stackCreate.top = none) ∧
    (∀ (s : Stack) (h : Heap) (l : List NodeId) (n : NodeId),
      Represents s h l → n ∉ l →
      ((stackPush s h n).1.count = 0 ↔ (stackPush s h n).1.top = none)) ∧
    (∀ (s : Stack) (h : Heap) (l : List NodeId), Represents s h l →
      ((stackPop s h).2.1.count = 0 ↔ (stackPop s h).2.1.top = none)) ∧
    (∀ (s : Stack) (h : Heap) (l : List NodeId) (fuel : Nat),
      Represents s h l → l.length ≤ fuel →
      ((stackClear fuel s h).1.count = 0 ↔ (stackClear fuel s h).1.top = none)) := by
  refine ⟨by simp [stackCreate], ?_, ?_, ?_⟩
  · intro s h l n hr hn
    exact represents_count_zero_iff (represents_push hr hn)
  · intro s h l hr
    cases l with
    | nil =>
      rw [represents_pop_nil hr]
      exact represents_count_zero_iff hr
    | cons a t =>
      obtain ⟨hpop, hrep'⟩ := represents_pop_cons hr
      rw [hpop]
      exact represents_count_zero_iff hrep'
  · intro s h l fuel hr hfuel
    obtain ⟨htop, hcount, _, _⟩ := stackClear_spec hr.1 hr.2.2 hfuel
    rw [htop, hcount, hr.2.1]
    simp

/-- C2 witness: the pop-preservation clause applied to a one-node stack. -/
theorem claimC2_witness :
    Represents { top := some 0, count := 1 } (fun _ => none) [0] ∧
    ((stackPop { top := some 0, count := 1 } (fun _ => none)).2.1.count = 0 ↔
      (stackPop { top := some 0, count := 1 } (fun _ => none)).2.1.top = none) :=
  ⟨by constructor <;> simp [isChain], by
    exact claimC2_count_zero_iff_top_empty.2.2.1
      { top := some 0, count := 1 } (fun _ => none) [0]
      ⟨by simp [isChain], by simp, by simp⟩⟩

/-- C3: `stackPop` on an empty stack returns empty and changes nothing;
on a non-empty stack it returns the old top `n`, makes `n`'s parent the
new top, resets `n`'s parent to the sentinel, decrements the count by
one, and touches no other node. -/
theorem claimC3_pop_exact (s : Stack) (h : Heap) :
    (s.top = none → stackPop s h = (none, s, h)) ∧
    (∀ n : NodeId, s.top = some n →
      (stackPop s h).1 = some n ∧
      (stackPop s h).2.1.top = h n ∧
      (stackPop s h).2.2 n = none ∧
      (stackPop s h).2.1.count = s.count - 1 ∧
      ∀ m : NodeId, m ≠ n → (stackPop s h).2.2 m = h m) := by
  constructor
  · intro htop
    simp [stackPop, htop]
  · intro n htop
    have hpop : stackPop s h =
        (some n, { top := h n, count := s.count - 1 }, updateHeap h n none) := by
      simp [stackPop, htop]
    rw [hpop]
    exact ⟨rfl, rfl, updateHeap_same h n none, rfl,
      fun m hm => updateHeap_other h n m none hm⟩

/-- C3 witness: a pop on the one-node stack with top `5` and count `2`. -/
theorem claimC3_witness :
    (⟨some 5, 2⟩ : Stack).top = some 5 ∧
    ((stackPop ⟨some 5, 2⟩ (fun _ => none)).1 = some 5 ∧
     (stackPop ⟨some 5, 2⟩ (fun _ => none)).2.1.top = none ∧
     (stackPop ⟨some 5, 2⟩ (fun _ => none)).2.2 5 = none ∧
     (stackPop ⟨some 5, 2⟩ (fun _ => none)).2.1.count = 1 ∧
     (stackPop ⟨some 5, 2⟩ (fun _ => none)).2.2 7 = none) := by
  have H := (claimC3_pop_exact ⟨some 5, 2⟩ (fun _ => none)).2 5 rfl
  exact ⟨rfl, H.1, H.2.1, H.2.2.1, by rw [H.2.2.2.1]; decide, by
    have := H.2.2.2.2 7 (by decide)
    simpa using this⟩

/-- C4: `stackClear` on a stack holding the distinct nodes `l` ends with
`count = 0`, an empty top, and the `parent` of every formerly linked node
reset to the sentinel. -/
theorem claimC4_clear_unlinks_all (s : Stack) (h : Heap) (l : List NodeId)
    (fuel : Nat) (hr : Represents s h l) (hfuel : l.length ≤ fuel) :
    (stackClear fuel s h).1.count = 0 ∧
    (stackClear fuel s h).1.top = none ∧
    ∀ i ∈ l, (stackClear fuel s h).2 i = none := by
  obtain ⟨htop, hcount, hmem, _⟩ := stackClear_spec hr.1 hr.2.2 hfuel
  refine ⟨?_, htop, hmem⟩
  rw [hcount, hr.2.1]
  ring

/-- C4 witness: clearing the two-node stack `1 → 0`. -/
theorem claimC4_witness :
    Represents ⟨some 1, 2⟩ (fun j => if j = 1 then some 0 else none) [1, 0] ∧
    (2 : Nat) ≤ 5 ∧
    ((stackClear 5 ⟨some 1, 2⟩ (fun j => if j = 1 then some 0 else none)).1.count = 0 ∧
     (stackClear 5 ⟨some 1, 2⟩ (fun j => if j = 1 then some 0 else none)).1.top = none ∧
     (stackClear 5 ⟨some 1, 2⟩ (fun j => if j = 1 then some 0 else none)).2 1 = none ∧
     (stackClear 5 ⟨some 1, 2⟩ (fun j => if j = 1 then some 0 else none)).2 0 = none) := by
  have hrep : Represents ⟨some 1, 2⟩ (fun j => if j = 1 then some 0 else none) [1, 0] := by
    refine ⟨?_, by simp, by decide⟩
    simp [isChain]
  have H := claimC4_clear_unlinks_all ⟨some 1, 2⟩
    (fun j => if j = 1 then some 0 else none) [1, 0] 5 hrep (by decide)
  exact ⟨hrep, by decide, H.1, H.2.1,
    H.2.2 1 (by decide), H.2.2 0 (by decide)⟩

/-- C10: `stackClear` reaches zero only by repeated decrements: on any
state whose parent chain from `top` is the node list `l` (the count being
arbitrary, even disagreeing with the chain length), the final count is the
old count minus the chain length, and it is zero exactly when the old
count equalled the chain length. -/
theorem claimC10_clear_decrements_per_pop (s : Stack) (h : Heap)
    (l : List NodeId) (fuel : Nat) (hc : isChain h s.top l) (hnd : l.Nodup)
    (hfuel : l.length ≤ fuel) :
    (stackClear fuel s h).1.count = s.count - l.length ∧
    ((stackClear fuel s h).1.count = 0 ↔ s.count = l.length) := by
  obtain ⟨_, hcount, _, _⟩ := stackClear_spec hc hnd hfuel
  refine ⟨hcount, ?_⟩
  rw [hcount]
  omega

/-- C10 witness: a corrupted one-node stack claiming `count = 5` ends with
`count = 4`, not `0`, after a clear. -/
theorem claimC10_witness :
    isChain (fun _ => none) (⟨some 0, 5⟩ : Stack).top [0] ∧
    ([0] : List NodeId).Nodup ∧
    (1 : Nat) ≤ 3 ∧
    ((stackClear 3 ⟨some 0, 5⟩ (fun _ => none)).1.count = 4 ∧
     ¬ (stackClear 3 ⟨some 0, 5⟩ (fun _ => none)).1.count = 0) := by
  have H := claimC10_clear_decrements_per_pop ⟨some 0, 5⟩ (fun _ => none) [0] 3
    (by simp [isChain]) (by decide) (by decide)
  refine ⟨by simp [isChain], by decide, by decide, ?_, ?_⟩
  · rw [H.1]
    rfl
  · intro h0
    have := H.2.mp h0
    simp at this

/-- C6: `stackIsTop` is true exactly when the stack is non-empty and the
comparator sends the top and the node to `0`; the default comparator of
`Stack.ts` returns `0` exactly on identical node references, non-zero on
every distinct pair; and on an empty stack `stackIsTop` is false for
every node and comparator. -/
theorem claimC6_isTop_and_default_compare :
    (∀ a b : NodeId, StackCompareFn a b = 0 ↔ a = b) ∧
    (∀ (s : Stack) (node : NodeId) (compare : NodeId → NodeId → Int),
      stackIsTop s node compare = true ↔
        ∃ t, s.top = some t ∧ compare t node = 0) ∧
    (∀ (s : Stack) (node : NodeId) (compare : NodeId → NodeId → Int),
      s.top = none → stackIsTop s node compare = false) := by
  refine ⟨?_, ?_, ?_⟩
  · intro a b
    by_cases hab : a = b <;> simp [StackCompareFn, nodeGt, hab]
  · intro s node compare
    cases htop : s.top with
    | none => simp [stackIsTop, htop]
    | some t => simp [stackIsTop, htop]
  · intro s node compare htop
    simp [stackIsTop, htop]

/-- C6 witness: default comparison at equal and distinct references, and
`stackIsTop` on the empty stack. -/
theorem claimC6_witness :
    (StackCompareFn 2 2 = 0 ↔ (2 : NodeId) = 2) ∧
    (StackCompareFn 2 3 = 0 ↔ (2 : NodeId) = 3) ∧
    stackIsTop ⟨none, 0⟩ 7 StackCompareFn = false :=
  ⟨claimC6_isTop_and_default_compare.1 2 2,
   claimC6_isTop_and_default_compare.1 2 3,
   claimC6_isTop_and_default_compare.2.2 ⟨none, 0⟩ 7 StackCompareFn rfl⟩

/-- C7: `stackQuery` returns exactly the linked nodes satisfying all given
predicates; with no predicates it returns exactly the linked nodes and its
size is the count; with an always-false predicate it is empty. -/
theorem claimC7_query_filters_all_predicates (s : Stack) (h : Heap)
    (l : List NodeId) (fuel : Nat) (hr : Represents s h l)
    (hfuel : l.length ≤ fuel) :
    (∀ (fns : List (NodeId → Bool)) (x : NodeId),
      x ∈ stackQuery fuel s h fns ↔ x ∈ l ∧ ∀ f ∈ fns, f x = true) ∧
    (∀ x : NodeId, x ∈ stackQuery fuel s h [] ↔ x ∈ l) ∧
    ((stackQuery fuel s h []).length : Int) = s.count ∧
    stackQuery fuel s h [fun _ => false] = [] := by
  refine ⟨?_, ?_, ?_, ?_⟩
  · intro fns x
    rw [stackQuery_eq_filter fns hr hfuel]
    simp [List.mem_filter, List.all_eq_true]
  · intro x
    rw [stackQuery_eq_filter [] hr hfuel]
    simp
  · rw [stackQuery_eq_filter [] hr hfuel]
    simp [hr.2.1]
  · rw [stackQuery_eq_filter [fun _ => false] hr hfuel]
    simp

/-- C7 witness: queries over the two-node stack `1 → 0`. -/
theorem claimC7_witness :
    Represents ⟨some 1, 2⟩ (fun j => if j = 1 then some 0 else none) [1, 0] ∧
    (2 : Nat) ≤ 4 ∧
    ((1 ∈ stackQuery 4 ⟨some 1, 2⟩ (fun j => if j = 1 then some 0 else none)
        [fun n => decide (n = 1)] ↔
      1 ∈ ([1, 0] : List NodeId) ∧
        ∀ f ∈ [fun n => decide (n = 1)], f 1 = true) ∧
     (0 ∈ stackQuery 4 ⟨some 1, 2⟩ (fun j => if j = 1 then some 0 else none) [] ↔
      0 ∈ ([1, 0] : List NodeId)) ∧
     ((stackQuery 4 ⟨some 1, 2⟩ (fun j => if j = 1 then some 0 else none)
        []).length : Int) = 2 ∧
     stackQuery 4 ⟨some 1, 2⟩ (fun j => if j = 1 then some 0 else none)
        [fun _ => false] = []) := by
  have hrep : Represents ⟨some 1, 2⟩ (fun j => if j = 1 then some 0 else none) [1, 0] := by
    refine ⟨?_, by simp, by decide⟩
    simp [isChain]
  have H := claimC7_query_filters_all_predicates ⟨some 1, 2⟩
    (fun j => if j = 1 then some 0 else none) [1, 0] 4 hrep (by decide)
  exact ⟨hrep, by decide, H.1 [fun n => decide (n = 1)] 1, H.2.1 0, H.2.2.1, H.2.2.2⟩

/-- C8: `stackDepth node` is the number of parent hops from the node to
the sentinel, the node itself not counted; after pushing distinct nodes
`a`, `b`, `c` in this order on a fresh stack, the depths of `c`, `b`, `a`
are `2`, `1`, `0`. -/
theorem claimC8_depth_counts_proper_ancestors :
    (∀ (h : Heap) (n : NodeId) (t : List NodeId) (fuel : Nat),
      isChain h (h n) t → t.length ≤ fuel → stackDepth fuel h n = t.length) ∧
    (∀ (a b c : NodeId) (h0 : Heap) (fuel : Nat),
      a ≠ b → a ≠ c → b ≠ c → 3 ≤ fuel →
      stackDepth fuel (pushAll stackCreate h0 [a, b, c]).2 c = 2 ∧
      stackDepth fuel (pushAll stackCreate h0 [a, b, c]).2 b = 1 ∧
      stackDepth fuel (pushAll stackCreate h0 [a, b, c]).2 a = 0) := by
  constructor
  · intro h n t fuel hc hfuel
    exact depthLoop_of_isChain hc hfuel
  · intro a b c h0 fuel hab hac hbc hfuel
    have hrep : Represents (pushAll stackCreate h0 [a, b, c]).1
        (pushAll stackCreate h0 [a, b, c]).2 [c, b, a] := by
      simpa using pushAll_represents (represents_create h0) (by simp)
        (by simp [hab, hac, hbc])
    obtain ⟨-, hcb, hba, han⟩ :
        (pushAll stackCreate h0 [a, b, c]).1.top = some c ∧
        (pushAll stackCreate h0 [a, b, c]).2 c = some b ∧
        (pushAll stackCreate h0 [a, b, c]).2 b = some a ∧
        (pushAll stackCreate h0 [a, b, c]).2 a = none := by
      obtain ⟨h1, h2, h3, h4⟩ := hrep.1
      exact ⟨h1, h2, h3, h4⟩
    refine ⟨?_, ?_, ?_⟩
    · have hcc : isChain (pushAll stackCreate h0 [a, b, c]).2
          ((pushAll stackCreate h0 [a, b, c]).2 c) [b, a] := by
        rw [hcb]
        exact ⟨rfl, by rw [hba]; exact ⟨rfl, han⟩⟩
      have hd := depthLoop_of_isChain hcc
        (show ([b, a] : List NodeId).length ≤ fuel by simp; omega)
      simpa [stackDepth] using hd
    · have hcc : isChain (pushAll stackCreate h0 [a, b, c]).2
          ((pushAll stackCreate h0 [a, b, c]).2 b) [a] := by
        rw [hba]
        exact ⟨rfl, han⟩
      have hd := depthLoop_of_isChain hcc
        (show ([a] : List NodeId).length ≤ fuel by simp; omega)
      simpa [stackDepth] using hd
    · have hcc : isChain (pushAll stackCreate h0 [a, b, c]).2
          ((pushAll stackCreate h0 [a, b, c]).2 a) [] := han
      have hd := depthLoop_of_isChain hcc (Nat.zero_le fuel)
      simpa [stackDepth] using hd

/-- C8 witness: the push scenario at nodes `0`, `1`, `2`. -/
theorem claimC8_witness :
    (0 : NodeId) ≠ 1 ∧ (0 : NodeId) ≠ 2 ∧ (1 : NodeId) ≠ 2 ∧ (3 : Nat) ≤ 3 ∧
    (stackDepth 3 (pushAll stackCreate (fun _ => none) [0, 1, 2]).2 2 = 2 ∧
     stackDepth 3 (pushAll stackCreate (fun _ => none) [0, 1, 2]).2 1 = 1 ∧
     stackDepth 3 (pushAll stackCreate (fun _ => none) [0, 1, 2]).2 0 = 0) :=
  ⟨by decide, by decide, by decide, by decide,
    claimC8_depth_counts_proper_ancestors.2 0 1 2 (fun _ => none) 3
      (by decide) (by decide) (by decide) (by decide)⟩

/-- C9: after pushing distinct `a`, `b`, `c` on a fresh stack, the
iterator yields `[c, b, a]`, iterating from `b` yields `[b, a]`, and
iterating from `b`'s parent yields `[a]`; in general a traversal yields
the chain from its start point down to, and excluding, the sentinel, and
iterating from the stack's top agrees with the stack iterator. -/
theorem claimC9_iteration_orders :
    (∀ (h : Heap) (n : NodeId) (l : List NodeId) (fuel : Nat),
      isChain h (some n) l → l.length ≤ fuel → stackIterateFrom fuel h n = l) ∧
    (∀ (s : Stack) (h : Heap) (t : NodeId) (fuel : Nat),
      s.top = some t → stackIterateFrom fuel h t = stackIterator fuel s h) ∧
    (∀ (a b c : NodeId) (h0 : Heap) (fuel : Nat),
      a ≠ b → a ≠ c → b ≠ c → 3 ≤ fuel →
      stackIterator fuel (pushAll stackCreate h0 [a, b, c]).1
        (pushAll stackCreate h0 [a, b, c]).2 = [c, b, a] ∧
      stackIterateFrom fuel (pushAll stackCreate h0 [a, b, c]).2 b = [b, a] ∧
      stackIterateToParent fuel (pushAll stackCreate h0 [a, b, c]).2 b = [a]) := by
  refine ⟨?_, ?_, ?_⟩
  · intro h n l fuel hc hfuel
    exact chain_of_isChain hc hfuel
  · intro s h t fuel htop
    unfold stackIterateFrom stackIterator
    rw [htop]
  · intro a b c h0 fuel hab hac hbc hfuel
    have hrep : Represents (pushAll stackCreate h0 [a, b, c]).1
        (pushAll stackCreate h0 [a, b, c]).2 [c, b, a] := by
      simpa using pushAll_represents (represents_create h0) (by simp)
        (by simp [hab, hac, hbc])
    obtain ⟨htopc, hcb, hba, han⟩ :
        (pushAll stackCreate h0 [a, b, c]).1.top = some c ∧
        (pushAll stackCreate h0 [a, b, c]).2 c = some b ∧
        (pushAll stackCreate h0 [a, b, c]).2 b = some a ∧
        (pushAll stackCreate h0 [a, b, c]).2 a = none := by
      obtain ⟨h1, h2, h3, h4⟩ := hrep.1
      exact ⟨h1, h2, h3, h4⟩
    refine ⟨?_, ?_, ?_⟩
    · exact chain_of_isChain hrep.1 (by simp; omega)
    · have hcb' : isChain (pushAll stackCreate h0 [a, b, c]).2 (some b) [b, a] :=
        ⟨rfl, by rw [hba]; exact ⟨rfl, han⟩⟩
      exact chain_of_isChain hcb' (by simp; omega)
    · have hca : isChain (pushAll stackCreate h0 [a, b, c]).2
          ((pushAll stackCreate h0 [a, b, c]).2 b) [a] := by
        rw [hba]
        exact ⟨rfl, han⟩
      exact chain_of_isChain hca (by simp; omega)

/-- C9 witness: the scenario at the concrete nodes `0`, `1`, `2`. -/
theorem claimC9_witness :
    (0 : NodeId) ≠ 1 ∧ (0 : NodeId) ≠ 2 ∧ (1 : NodeId) ≠ 2 ∧ (3 : Nat) ≤ 3 ∧
    (stackIterator 3 (pushAll stackCreate (fun _ => none) [0, 1, 2]).1
      (pushAll stackCreate (fun _ => none) [0, 1, 2]).2 = [2, 1, 0] ∧
     stackIterateFrom 3 (pushAll stackCreate (fun _ => none) [0, 1, 2]).2 1 = [1, 0] ∧
     stackIterateToParent 3 (pushAll stackCreate (fun _ => none) [0, 1, 2]).2 1 = [0]) :=
  ⟨by decide, by decide, by decide, by decide,
    claimC9_iteration_orders.2.2 0 1 2 (fun _ => none) 3
      (by decide) (by decide) (by decide) (by decide)⟩

theorem P0chain_eq (h : Heap) :
    ∀ (fuel : Nat) (o : Option NodeId), P0.chain h fuel o = chain h fuel o := by
  intro fuel
  induction fuel with
  | zero => intro o; rfl
  | succ f ih =>
    intro o
    cases o with
    | none => rfl
    | some n =>
      show n :: P0.chain h f (h n) = n :: chain h f (h n)
      rw [ih]

theorem P0depthLoop_eq (h : Heap) :
    ∀ (fuel : Nat) (o : Option NodeId), P0.depthLoop h fuel o = depthLoop h fuel o := by
  intro fuel
  induction fuel with
  | zero => intro o; rfl
  | succ f ih =>
    intro o
    cases o with
    | none => rfl
    | some n =>
      show P0.depthLoop h f (h n) + 1 = depthLoop h f (h n) + 1
      rw [ih]

theorem P0stackPop_eq (s : Stack) (h : Heap) : P0.stackPop s h = stackPop s h := by
  cases htop : s.top <;> simp [P0.stackPop, stackPop, htop, SentinelNode]

theorem P0stackClear_eq :
    ∀ (fuel : Nat) (s : Stack) (h : Heap),
      P0.stackClear fuel s h = stackClear fuel s h := by
  intro fuel
  induction fuel with
  | zero => intro s h; rfl
  | succ f ih =>
    intro s h
    cases htop : s.top with
    | none => simp [P0.stackClear, stackClear, htop]
    | some n =>
      simp only [P0.stackClear, stackClear, htop]
      rw [P0stackPop_eq, ih]

theorem P0queryLoop_eq (fns : List (NodeId → Bool)) :
    ∀ c r : List NodeId, P0.queryLoop fns c r = queryLoop fns c r := by
  intro c
  induction c with
  | nil => intro r; rfl
  | cons n rest ih =>
    intro r
    show P0.queryLoop fns rest _ = queryLoop fns rest _
    rw [ih]

/-- C5: the two implementations — `src/src/structures/Stack.ts` and
`src/unnamed/part_000` — are extensionally equivalent once the two empty
markers (`void 0` and `SentinelNode`) are identified: every operation
produces the same result and state change, and the two differing default
comparators agree on whether they return `0` on every pair of nodes. -/
theorem claimC5_implementations_equivalent :
    P0.stackCreate = stackCreate ∧
    (∀ (h : Heap) (i : NodeId), P0.stackNodeCreate h i = stackNodeCreate h i) ∧
    (∀ s : Stack, P0.stackPeek s = stackPeek s) ∧
    (∀ (s : Stack) (h : Heap) (n : NodeId), P0.stackPush s h n = stackPush s h n) ∧
    (∀ (s : Stack) (h : Heap), P0.stackPop s h = stackPop s h) ∧
    (∀ (fuel : Nat) (s : Stack) (h : Heap),
      P0.stackClear fuel s h = stackClear fuel s h) ∧
    (∀ (fuel : Nat) (h : Heap) (n : NodeId),
      P0.stackDepth fuel h n = stackDepth fuel h n) ∧
    (∀ (s : Stack) (n : NodeId) (compare : NodeId → NodeId → Int),
      P0.stackIsTop s n compare = stackIsTop s n compare) ∧
    (∀ (fuel : Nat) (s : Stack) (h : Heap) (n : NodeId)
      (compare : NodeId → NodeId → Int),
      P0.stackHas fuel s h n compare = stackHas fuel s h n compare) ∧
    (∀ (fuel : Nat) (s : Stack) (h : Heap) (fns : List (NodeId → Bool)),
      P0.stackQuery fuel s h fns = stackQuery fuel s h fns) ∧
    (∀ (fuel : Nat) (s : Stack) (h : Heap),
      P0.stackIterator fuel s h = stackIterator fuel s h) ∧
    (∀ (fuel : Nat) (h : Heap) (n : NodeId),
      P0.stackIterateFrom fuel h n = stackIterateFrom fuel h n) ∧
    (∀ (fuel : Nat) (h : Heap) (n : NodeId),
      P0.stackIterateToParent fuel h n = stackIterateToParent fuel h n) ∧
    (∀ a b : NodeId, P0.StackCompareFn a b = 0 ↔ StackCompareFn a b = 0) := by
  refine ⟨rfl, fun h i => rfl, fun s => rfl, fun s h n => rfl, P0stackPop_eq,
    P0stackClear_eq, ?_, ?_, ?_, ?_, ?_, ?_, ?_, ?_⟩
  · intro fuel h n
    unfold P0.stackDepth stackDepth
    rw [P0depthLoop_eq]
  · intro s n compare
    cases htop : s.top <;> simp [P0.stackIsTop, stackIsTop, htop]
  · intro fuel s h n compare
    unfold P0.stackHas stackHas
    rw [P0chain_eq]
  · intro fuel s h fns
    unfold P0.stackQuery stackQuery
    rw [P0chain_eq, P0queryLoop_eq]
  · intro fuel s h
    unfold P0.stackIterator stackIterator
    rw [P0chain_eq]
  · intro fuel h n
    unfold P0.stackIterateFrom stackIterateFrom
    rw [P0chain_eq]
  · intro fuel h n
    unfold P0.stackIterateToParent stackIterateToParent
    rw [P0chain_eq]
  · intro a b
    by_cases hab : a = b <;> simp [P0.StackCompareFn, StackCompareFn, nodeGt, hab]
